import Mathlib

/-!
# Verification of the MoCo-style contrastive training module

Shallow embedding of `src/project/moco/moco3_module.py` (class `MDEE`).

Conventions of the embedding:

* Scalars are rationals (`ℚ`); tensors are nested lists.
* A queue of shape `emb_dim × num_negatives` is stored column-wise as a
  `List Vec` of `num_negatives` columns, each column one key embedding.
  A batch of keys (`batch × emb_dim`) is a `List Vec` of rows, so `keys.T`'s
  columns are exactly the rows of `keys`.
* The backbone encoders and the row-wise L2 normalisation involve real
  arithmetic (square roots) that the code delegates to the tensor library;
  they enter the embedding as explicit function arguments (`enc`,
  `normalizeRow`), as do the cross-entropy loss and the k-means loss
  (`ce`, `kml`).  All statements hold for every choice of these functions.
* Fallible code paths (the unassigned `D_ij` on an unrecognised metric,
  which raises a `NameError` at `D_ij.argKmin`) are modelled with `Option`.
* The single-worker execution path is modelled: `concat_all_gather` is the
  identity there, and the DDP shuffle machinery is modelled separately with
  an explicit world size (`shuffledGather` plays the role of the re-gather).
-/

namespace Moco

/-- An embedding vector (one row / one queue column). -/
abbrev Vec := List ℚ

/-- A matrix stored as a list of rows (or, for queues, as a list of columns). -/
abbrev Mat := List Vec

/-- Dot product of two vectors, `torch.einsum("nc,nc->n")` applied row-wise. -/
def dotProduct (a b : Vec) : ℚ := (List.zipWith (· * ·) a b).sum

/-- Hyperparameters of `MDEE.__init__` that the verified operations read. -/
structure Hparams where
  embDim : Nat
  numNegatives : Nat
  encoderMomentum : ℚ
  softmaxTemperature : ℚ
  batchSize : Nat
  useKnn : Bool
  topk : Nat
  metric : String
  useKmeans : Bool
deriving DecidableEq

/-- Mutable state of the module: the two encoders' (flattened) parameters,
the training queue with its pointer, and the validation queue with its
pointer (`queue`, `queue_ptr`, `val_queue`, `val_queue_ptr` buffers). -/
structure ModelState where
  encQ : Vec
  encK : Vec
  queue : Mat
  queuePtr : Nat
  valQueue : Mat
  valQueuePtr : Nat
deriving DecidableEq

/-- `MDEE._momentum_update_key_encoder`: for every parameter pair,
`param_k.data = param_k.data * em + param_q.data * (1.0 - em)`.
The Python method mutates `encoder_k` in place and returns nothing;
in the state-passing embedding it returns the new key parameters. -/
def momentumUpdate (em : ℚ) (encQ encK : Vec) : Vec :=
  List.zipWith (fun q k => k * em + q * (1 - em)) encQ encK

/-- The slice assignment `queue[:, ptr : ptr + batch_size] = keys.T`:
one contiguous window of columns starting at `ptr` is replaced by the
incoming keys; columns before `ptr` and from `ptr + keys.length` on are
kept.  (The tensor assignment is only well-formed without wrap-around,
i.e. when `ptr + keys.length ≤ queue.length`; see `enqueue` claims.) -/
def queueWrite (queue : Mat) (ptr : Nat) (keys : Mat) : Mat :=
  queue.take ptr ++ keys ++ queue.drop (ptr + keys.length)

/-- `MDEE._dequeue_and_enqueue` (single-worker path, where
`concat_all_gather` is the identity): if the incoming batch size equals the
configured batch size, write the keys at `ptr` and advance the pointer by
the batch size modulo `num_negatives`; otherwise do nothing. -/
def dequeueAndEnqueue (hp : Hparams) (keys : Mat) (queuePtr : Nat) (queue : Mat) :
    Nat × Mat :=
  let batchSize := keys.length
  if batchSize = hp.batchSize then
    ((queuePtr + batchSize) % hp.numNegatives, queueWrite queue queuePtr keys)
  else
    (queuePtr, queue)

/-- Repeated enqueue of a list of key batches (the per-step calls of
`_dequeue_and_enqueue` over successive training steps). -/
def enqueueMany (hp : Hparams) (batches : List Mat) (p : Nat × Mat) : Nat × Mat :=
  batches.foldl (fun s b => dequeueAndEnqueue hp b s.1 s.2) p

/-- Squared Euclidean distance `((X_i - X_j) ** 2).sum(-1)`. -/
def sqDist (xi xj : Vec) : ℚ := ((List.zipWith (· - ·) xi xj).map (fun t => t * t)).sum

/-- Manhattan distance `(X_i - X_j).abs().sum(-1)`. -/
def manhattanDist (xi xj : Vec) : ℚ := ((List.zipWith (· - ·) xi xj).map (fun t => |t|)).sum

/-- The `if self.metric == ... / elif ...` chain of `MDEE.knn_approx` that
assigns the symbolic distance `D_ij`.  The chain has no `else`: an
unrecognised metric leaves `D_ij` unassigned, which the embedding records
as `none` (in Python, a `NameError` at the subsequent `D_ij.argKmin`). -/
def metricDist (metric : String) : Option (Vec → Vec → ℚ) :=
  if metric = "euclidean" then some sqDist
  else if metric = "manhattan" then some manhattanDist
  else if metric = "angular" then some (fun xi xj => -(dotProduct xi xj))
  else if metric = "hyperbolic" then
    some (fun xi xj => sqDist xi xj / (xi.getD 0 0 * xj.getD 0 0))
  else if metric = "ang+hyper" then
    some (fun xi xj => -(dotProduct xi xj) + sqDist xi xj / (xi.getD 0 0 * xj.getD 0 0))
  else none

/-- The five metric names handled by `knn_approx`'s distance chain. -/
def supportedMetrics : List String :=
  ["euclidean", "manhattan", "angular", "hyperbolic", "ang+hyper"]

/-- `D_ij.argKmin(topk, dim=1)` for one query row: the indices of the
`topk` smallest entries of the distance row, in ascending distance order
(modelled by a stable sort of the index range by distance). -/
def argKmin (dists : Vec) (k : Nat) : List Nat :=
  (List.insertionSort (fun i j => dists.getD i 0 ≤ dists.getD j 0)
    (List.range dists.length)).take k

/-- `MDEE.knn_approx`: transpose the *training* queue (`self.queue`) to a
row list of `num_negatives` embeddings (column-wise storage makes the
transpose the identity on the representation), compute each query row's
distance to every queue row under `self.metric`, and gather the `topk`
nearest queue rows per query (`queue[index_knn, :]`).  Returns `none`
when the metric chain leaves `D_ij` unassigned. -/
def knnApprox (hp : Hparams) (selfQueue : Mat) (query : Mat) : Option (List Mat) :=
  match metricDist hp.metric with
  | none => none
  | some d =>
      some (query.map fun xi =>
        let indexKnn := argKmin (selfQueue.map fun xj => d xi xj) hp.topk
        indexKnn.map fun j => selfQueue.getD j [])

/-- `torch.einsum('nc,njc->nc', [query, neg_examples])` as written on the
KNN path of `MDEE.forward`: the output keeps indices `n` and `c` and sums
over the repeated index `j`, so `out[n][c] = query[n][c] * Σ_j neg[n][j][c]`
— a `batch × emb_dim` matrix. -/
def einsum_nc_njc_nc (query : Mat) (negExamples : List Mat) : Mat :=
  List.zipWith
    (fun qRow negRows =>
      (List.range qRow.length).map fun c =>
        qRow.getD c 0 * ((negRows.map fun nr => nr.getD c 0).sum))
    query negExamples

/-- `torch.einsum("nc,ck->nk", [query, queue])` on the queue path:
`out[n][k]` is the dot product of query row `n` with queue column `k`. -/
def einsum_nc_ck_nk (query : Mat) (queueCols : Mat) : Mat :=
  query.map fun qRow => queueCols.map fun col => dotProduct qRow col

/-- `torch.cat([l_pos, l_neg], dim=1)` followed by `logits /= T`. -/
def assembleLogits (lPos : Vec) (lNeg : Mat) (temperature : ℚ) : Mat :=
  (List.zipWith (fun p negRow => p :: negRow) lPos lNeg).map
    fun row => row.map (fun v => v / temperature)

/-- The negative-logit computation of `MDEE.forward`: on the KNN path it
mines negatives with `self.knn_approx(query)` — which reads the *training*
queue `self.queue`, not the `queue` argument — and applies the
`'nc,njc->nc'` einsum; on the queue path it uses the `queue` argument. -/
def negLogitsOf (hp : Hparams) (st : ModelState) (queue : Mat) (query : Mat) :
    Option Mat :=
  if hp.useKnn then
    (knnApprox hp st.queue query).map (einsum_nc_njc_nc query)
  else
    some (einsum_nc_ck_nk query queue)

/-- `MDEE.forward` (single-worker path, so the DDP shuffle around the key
encoder is skipped): encode and row-normalise queries and keys, form the
positive logits `einsum("nc,nc->n")`, the negative logits (queue or KNN
path), concatenate `[l_pos | l_neg]`, divide by the softmax temperature,
and return all-zero labels of length `logits.shape[0]`.  `enc p img`
applies an encoder with parameters `p`; `normalizeRow` is the row-wise
L2 normalisation. -/
def forward (hp : Hparams) (enc : Vec → Vec → Vec) (normalizeRow : Vec → Vec)
    (st : ModelState) (imgQ imgK : List Vec) (queue : Mat) :
    Option (Mat × Vec × Mat × Mat) :=
  let query := (imgQ.map (enc st.encQ)).map normalizeRow
  let key := (imgK.map (enc st.encK)).map normalizeRow
  (negLogitsOf hp st queue query).map fun lNeg =>
    let logits := assembleLogits (List.zipWith dotProduct query key) lNeg
      hp.softmaxTemperature
    (logits, List.replicate logits.length (0 : ℚ), query, key)

/-- `MDEE.training_step`: momentum-update the key encoder, run `forward`
with the training queue, enqueue the new keys into the training queue,
then compute the loss (`ce`, plus `kml` when the k-means loss is enabled).
Returns the new state together with `(output, target, query, keys, loss)`. -/
def trainingStep (hp : Hparams) (enc : Vec → Vec → Vec) (normalizeRow : Vec → Vec)
    (ce : Mat → Vec → ℚ) (kml : Mat → Mat → ℚ)
    (st : ModelState) (img1 img2 : List Vec) :
    Option (ModelState × Mat × Vec × Mat × Mat × ℚ) :=
  let st1 : ModelState :=
    { st with encK := momentumUpdate hp.encoderMomentum st.encQ st.encK }
  (forward hp enc normalizeRow st1 img1 img2 st1.queue).map fun r =>
    match r with
    | (output, target, query, keys) =>
      let pq := dequeueAndEnqueue hp keys st1.queuePtr st1.queue
      let st2 : ModelState := { st1 with queuePtr := pq.1, queue := pq.2 }
      let loss := ce output target
      let loss := if hp.useKmeans then loss + kml query keys else loss
      (st2, output, target, query, keys, loss)

/-- `MDEE.validation_step`: no momentum update; `forward` is called with
the validation queue, and the new keys are enqueued into the validation
queue (`self.val_queue`, `self.val_queue_ptr`). -/
def validationStep (hp : Hparams) (enc : Vec → Vec → Vec) (normalizeRow : Vec → Vec)
    (ce : Mat → Vec → ℚ) (kml : Mat → Mat → ℚ)
    (st : ModelState) (img1 img2 : List Vec) :
    Option (ModelState × Mat × Vec × Mat × Mat × ℚ) :=
  (forward hp enc normalizeRow st img1 img2 st.valQueue).map fun r =>
    match r with
    | (output, target, query, keys) =>
      let pq := dequeueAndEnqueue hp keys st.valQueuePtr st.valQueue
      let st2 : ModelState := { st with valQueuePtr := pq.1, valQueue := pq.2 }
      let loss := ce output target
      let loss := if hp.useKmeans then loss + kml query keys else loss
      (st2, output, target, query, keys, loss)


/-! ## Helper lemmas -/

theorem getD_map_of_lt {α β : Type} (f : α → β) (l : List α) (i : Nat) (d : β)
    (d' : α) (h : i < l.length) : (l.map f).getD i d = f (l.getD i d') := by
  rw [List.getD_eq_getElem _ _ (by simpa using h), List.getD_eq_getElem _ _ h,
    List.getElem_map]

theorem assembleLogits_length (lPos : Vec) (lNeg : Mat) (T : ℚ) :
    (assembleLogits lPos lNeg T).length = min lPos.length lNeg.length := by
  simp [assembleLogits]

theorem assembleLogits_head (lPos : Vec) (lNeg : Mat) (T : ℚ) (i : Nat)
    (h : i < (assembleLogits lPos lNeg T).length) :
    ((assembleLogits lPos lNeg T).getD i []).getD 0 0 = lPos.getD i 0 / T := by
  rw [assembleLogits_length] at h
  have hp : i < lPos.length := lt_of_lt_of_le h (min_le_left _ _)
  have hn : i < lNeg.length := lt_of_lt_of_le h (min_le_right _ _)
  have hz : i < (List.zipWith (fun p negRow => p :: negRow) lPos lNeg).length := by
    simpa using h
  unfold assembleLogits
  rw [getD_map_of_lt _ _ _ _ [] hz, List.getD_eq_getElem _ _ hz,
    List.getElem_zipWith (h := hz)]
  simp [List.getD, List.getElem?_eq_getElem hp]

theorem enqueueMany_ptr (hp : Hparams) (hN : 0 < hp.numNegatives) :
    ∀ (batches : List Mat) (p : Nat) (q : Mat), p < hp.numNegatives →
      (∀ b ∈ batches, b.length = hp.batchSize) →
      (enqueueMany hp batches (p, q)).1 =
        (p + batches.length * hp.batchSize) % hp.numNegatives := by
  intro batches
  induction batches with
  | nil => intro p q hplt _; simpa [enqueueMany] using (Nat.mod_eq_of_lt hplt).symm
  | cons b rest ih =>
      intro p q hplt hall
      have hb : b.length = hp.batchSize := hall b (by simp)
      have hstep : dequeueAndEnqueue hp b p q =
          ((p + hp.batchSize) % hp.numNegatives, queueWrite q p b) := by
        simp [dequeueAndEnqueue, hb]
      have : enqueueMany hp (b :: rest) (p, q) =
          enqueueMany hp rest ((p + hp.batchSize) % hp.numNegatives, queueWrite q p b) := by
        simp [enqueueMany, hstep]
      rw [this, ih _ _ (Nat.mod_lt _ hN) (fun b' hb' => hall b' (by simp [hb']))]
      rw [Nat.mod_add_mod]
      congr 1
      rw [List.length_cons, Nat.succ_mul]
      omega

/-! ## C3: enqueue is a silent no-op on a mismatched batch size -/

/-- C3: when the incoming (gathered) batch size differs from the configured
`batch_size`, `_dequeue_and_enqueue` changes neither the queue contents nor
the write pointer, and no error is raised (the function is total). -/
theorem dequeueAndEnqueue_mismatch_noop (hp : Hparams) (keys : Mat) (ptr : Nat)
    (q : Mat) (h : keys.length ≠ hp.batchSize) :
    dequeueAndEnqueue hp keys ptr q = (ptr, q) := by
  simp [dequeueAndEnqueue, h]

/-- Witness for C3 at a concrete mismatched batch. -/
theorem dequeueAndEnqueue_mismatch_noop_witness :
    ([[ (1:ℚ) ]] : Mat).length ≠
      (Hparams.mk 1 2 0 1 2 false 0 "euclidean" false).batchSize ∧
    dequeueAndEnqueue (Hparams.mk 1 2 0 1 2 false 0 "euclidean" false)
      [[(1:ℚ)]] 1 [[(5:ℚ)], [(6:ℚ)]] = (1, [[(5:ℚ)], [(6:ℚ)]]) :=
  ⟨by decide, dequeueAndEnqueue_mismatch_noop _ _ _ _ (by decide)⟩

/-! ## C4: momentum blend exactness -/

/-- C4: after one momentum update with coefficient `m`, every corresponding
(query, key) parameter pair satisfies `new_key = m * old_key + (1 - m) * query`
elementwise.  (The Python method mutates `encoder_k` in place and returns
nothing; `trainingStep` threads the result through the state.) -/
theorem momentumUpdate_blend (em : ℚ) (pq pk : Vec) (i : Nat)
    (hq : i < pq.length) (hk : i < pk.length) :
    (momentumUpdate em pq pk).getD i 0 =
      em * pk.getD i 0 + (1 - em) * pq.getD i 0 := by
  have hlen : i < (momentumUpdate em pq pk).length := by
    simp only [momentumUpdate, List.length_zipWith]; omega
  rw [List.getD_eq_getElem _ _ hlen, List.getD_eq_getElem _ _ hq,
    List.getD_eq_getElem _ _ hk]
  unfold momentumUpdate
  rw [List.getElem_zipWith (h := hlen)]
  ring

/-- Witness for C4 at a concrete parameter pair. -/
theorem momentumUpdate_blend_witness :
    (0 : Nat) < ([ (4:ℚ) ] : Vec).length ∧ (0 : Nat) < ([ (6:ℚ) ] : Vec).length ∧
    (momentumUpdate (1/2) [(4:ℚ)] [(6:ℚ)]).getD 0 0 =
      (1/2) * ([(6:ℚ)] : Vec).getD 0 0 + (1 - 1/2) * ([(4:ℚ)] : Vec).getD 0 0 :=
  ⟨by decide, by decide, momentumUpdate_blend (1/2) [4] [6] 0 (by decide) (by decide)⟩


/-! ## C5: queue pointer invariant and circular advance -/

/-- C5: the write pointer (i) advances to `(ptr + batch_size) % num_negatives`
on every successful enqueue, (ii) always stays in `[0, num_negatives)`
(it is a `Nat`, so `0 ≤ ptr` holds by type), and (iii) after enqueuing `B`
full batches of size `batch_size` starting from pointer `0`, equals
`(B * batch_size) % num_negatives`. -/
theorem queuePtr_invariant (hp : Hparams) (hN : 0 < hp.numNegatives) :
    (∀ (keys : Mat) (ptr : Nat) (q : Mat), keys.length = hp.batchSize →
        (dequeueAndEnqueue hp keys ptr q).1 = (ptr + hp.batchSize) % hp.numNegatives) ∧
    (∀ (keys : Mat) (ptr : Nat) (q : Mat), ptr < hp.numNegatives →
        (dequeueAndEnqueue hp keys ptr q).1 < hp.numNegatives) ∧
    (∀ (batches : List Mat) (q : Mat), (∀ b ∈ batches, b.length = hp.batchSize) →
        (enqueueMany hp batches (0, q)).1 =
          batches.length * hp.batchSize % hp.numNegatives) := by
  refine ⟨?_, ?_, ?_⟩
  · intro keys ptr q hkeys
    simp [dequeueAndEnqueue, hkeys]
  · intro keys ptr q hptr
    by_cases hkeys : keys.length = hp.batchSize
    · simp only [dequeueAndEnqueue, hkeys, if_pos]
      exact Nat.mod_lt _ hN
    · simpa [dequeueAndEnqueue, hkeys] using hptr
  · intro batches q hall
    simpa using enqueueMany_ptr hp hN batches 0 q hN hall

/-- Witness for C5 at a concrete configuration (capacity 4, batch size 2,
three full batches: pointer `3 * 2 % 4 = 2`). -/
theorem queuePtr_invariant_witness :
    0 < (Hparams.mk 1 4 0 1 2 false 0 "euclidean" false).numNegatives ∧
    (∀ b ∈ ([[[1],[2]], [[3],[4]], [[5],[6]]] : List Mat), b.length =
      (Hparams.mk 1 4 0 1 2 false 0 "euclidean" false).batchSize) ∧
    (enqueueMany (Hparams.mk 1 4 0 1 2 false 0 "euclidean" false)
        [[[1],[2]], [[3],[4]], [[5],[6]]] (0, [[0],[0],[0],[0]])).1 =
      ([[[1],[2]], [[3],[4]], [[5],[6]]] : List Mat).length *
        (Hparams.mk 1 4 0 1 2 false 0 "euclidean" false).batchSize %
        (Hparams.mk 1 4 0 1 2 false 0 "euclidean" false).numNegatives :=
  ⟨by decide, by decide,
    (queuePtr_invariant (Hparams.mk 1 4 0 1 2 false 0 "euclidean" false)
      (by decide)).2.2 [[[1],[2]], [[3],[4]], [[5],[6]]] [[0],[0],[0],[0]]
      (by decide)⟩

/-! ## C6: all-zero targets and positive similarity in column 0 -/

/-- C6: whenever `forward` returns, the target vector is identically zero,
its length matches the number of logit rows, and column `0` of every logit
row is the dot product of the matching query and key rows divided by the
softmax temperature. -/
theorem forward_targets_zero_positive_col (hp : Hparams)
    (enc : Vec → Vec → Vec) (normalizeRow : Vec → Vec) (st : ModelState)
    (imgQ imgK : List Vec) (queue : Mat) (logits : Mat) (labels : Vec)
    (query key : Mat)
    (h : forward hp enc normalizeRow st imgQ imgK queue =
      some (logits, labels, query, key)) :
    (∀ l ∈ labels, l = 0) ∧ labels.length = logits.length ∧
    ∀ i, i < logits.length →
      (logits.getD i []).getD 0 0 =
        dotProduct (query.getD i []) (key.getD i []) / hp.softmaxTemperature := by
  unfold forward at h
  obtain ⟨lNeg, -, heq⟩ := Option.map_eq_some'.1 h
  obtain ⟨hlog, hlab, hq, hk⟩ : logits = assembleLogits
      (List.zipWith dotProduct ((imgQ.map (enc st.encQ)).map normalizeRow)
        ((imgK.map (enc st.encK)).map normalizeRow)) lNeg hp.softmaxTemperature ∧
      labels = List.replicate logits.length (0 : ℚ) ∧
      query = (imgQ.map (enc st.encQ)).map normalizeRow ∧
      key = (imgK.map (enc st.encK)).map normalizeRow := by
    have h1 := congrArg (fun t => t.1) heq
    have h2 := congrArg (fun t => t.2.1) heq
    have h3 := congrArg (fun t => t.2.2.1) heq
    have h4 := congrArg (fun t => t.2.2.2) heq
    simp only at h1 h2 h3 h4
    exact ⟨h1.symm, by rw [← h2, h1], h3.symm, h4.symm⟩
  subst hq hk hlog
  refine ⟨fun l hl => List.eq_of_mem_replicate (hlab ▸ hl), by rw [hlab]; simp, ?_⟩
  intro i hi
  rw [assembleLogits_head _ _ _ _ hi]
  congr 1
  rw [assembleLogits_length] at hi
  have hql : i < (List.zipWith dotProduct ((imgQ.map (enc st.encQ)).map normalizeRow)
      ((imgK.map (enc st.encK)).map normalizeRow)).length := by
    simp only [List.length_zipWith] at hi ⊢
    omega
  have hq' : i < ((imgQ.map (enc st.encQ)).map normalizeRow).length := by
    simp only [List.length_zipWith] at hql
    omega
  have hk' : i < ((imgK.map (enc st.encK)).map normalizeRow).length := by
    simp only [List.length_zipWith] at hql
    omega
  rw [List.getD_eq_getElem _ _ hql, List.getD_eq_getElem _ _ hq',
    List.getD_eq_getElem _ _ hk', List.getElem_zipWith (h := hql)]

/-- Witness for C6 on a concrete standard-path forward call. -/
theorem forward_targets_zero_positive_col_witness :
    forward (Hparams.mk 1 2 0 1 1 false 0 "euclidean" false)
        (fun p _ => p) id
        (ModelState.mk [1] [2] [[3],[4]] 0 [[5],[6]] 0)
        [[0]] [[0]] [[3],[4]] =
      some ([[2, 3, 4]], [0], [[1]], [[2]]) ∧
    ((∀ l ∈ ([0] : Vec), l = 0) ∧ ([0] : Vec).length = ([[2, 3, 4]] : Mat).length ∧
      ∀ i, i < ([[2, 3, 4]] : Mat).length →
        (([[2, 3, 4]] : Mat).getD i []).getD 0 0 =
          dotProduct (([[1]] : Mat).getD i []) (([[2]] : Mat).getD i []) /
            (Hparams.mk 1 2 0 1 1 false 0 "euclidean" false).softmaxTemperature) :=
  ⟨by norm_num [forward, negLogitsOf, einsum_nc_ck_nk, assembleLogits, dotProduct],
    forward_targets_zero_positive_col (Hparams.mk 1 2 0 1 1 false 0 "euclidean" false)
      (fun p _ => p) id (ModelState.mk [1] [2] [[3],[4]] 0 [[5],[6]] 0)
      [[0]] [[0]] [[3],[4]] [[2, 3, 4]] [0] [[1]] [[2]]
      (by norm_num [forward, negLogitsOf, einsum_nc_ck_nk, assembleLogits, dotProduct])⟩


/-! ## C9: the KNN miner's metric dispatch -/

theorem metricDist_eq_none_iff (metric : String) :
    metricDist metric = none ↔ metric ∉ supportedMetrics := by
  unfold metricDist supportedMetrics
  split_ifs <;> simp_all

/-- C9: for a metric name outside the five supported ones the distance
chain leaves `D_ij` unassigned and `knn_approx` fails instead of returning
a neighbour set (modelled as `none`); for each supported name it returns a
`batch × topk × emb_dim` neighbour tensor. -/
theorem knnApprox_metric_support (hp : Hparams) (q query : Mat)
    (htop : hp.topk ≤ q.length) (hdim : ∀ c ∈ q, c.length = hp.embDim) :
    (hp.metric ∉ supportedMetrics → knnApprox hp q query = none) ∧
    (hp.metric ∈ supportedMetrics → ∃ r, knnApprox hp q query = some r ∧
      r.length = query.length ∧
      ∀ row ∈ r, row.length = hp.topk ∧ ∀ v ∈ row, v.length = hp.embDim) := by
  constructor
  · intro hm
    unfold knnApprox
    rw [(metricDist_eq_none_iff hp.metric).2 hm]
  · intro hm
    obtain ⟨d, hd⟩ : ∃ d, metricDist hp.metric = d ∧ d ≠ none := by
      refine ⟨metricDist hp.metric, rfl, ?_⟩
      intro hnone
      exact ((metricDist_eq_none_iff hp.metric).1 hnone) hm
    obtain ⟨dist, hdist⟩ : ∃ dist, metricDist hp.metric = some dist := by
      cases h : metricDist hp.metric with
      | none => exact absurd (hd.1.symm.trans h) hd.2
      | some dist => exact ⟨dist, rfl⟩
    refine ⟨_, by unfold knnApprox; rw [hdist], by simp, ?_⟩
    intro row hrow
    obtain ⟨xi, -, hxi⟩ := List.mem_map.1 hrow
    constructor
    · rw [← hxi]
      simp only [List.length_map, argKmin, List.length_take,
        List.length_insertionSort, List.length_range, List.length_map]
      omega
    · intro v hv
      rw [← hxi] at hv
      obtain ⟨j, hj, hvj⟩ := List.mem_map.1 hv
      have hjlt : j < q.length := by
        have hj' : j ∈ List.insertionSort
            (fun i j => ((q.map fun xj => dist xi xj)).getD i 0 ≤
              ((q.map fun xj => dist xi xj)).getD j 0)
            (List.range ((q.map fun xj => dist xi xj)).length) :=
          List.take_subset _ _ hj
        have := (List.mem_insertionSort _).1 hj'
        simpa using List.mem_range.1 this
      rw [← hvj, List.getD_eq_getElem _ _ hjlt]
      exact hdim _ (List.getElem_mem hjlt)

/-- Witness for C9: with the supported metric `"euclidean"`, `topk = 1`,
and a one-column queue of dimension 1, a neighbour tensor of the stated
shape is returned. -/
theorem knnApprox_metric_support_witness :
    (Hparams.mk 1 1 0 1 1 true 1 "euclidean" false).topk ≤ ([[0]] : Mat).length ∧
    (∀ c ∈ ([[0]] : Mat), c.length =
      (Hparams.mk 1 1 0 1 1 true 1 "euclidean" false).embDim) ∧
    (((Hparams.mk 1 1 0 1 1 true 1 "euclidean" false).metric ∉ supportedMetrics →
        knnApprox (Hparams.mk 1 1 0 1 1 true 1 "euclidean" false) [[0]] [[0]] = none) ∧
      ((Hparams.mk 1 1 0 1 1 true 1 "euclidean" false).metric ∈ supportedMetrics →
        ∃ r, knnApprox (Hparams.mk 1 1 0 1 1 true 1 "euclidean" false) [[0]] [[0]] =
            some r ∧ r.length = ([[0]] : Mat).length ∧
          ∀ row ∈ r, row.length = (Hparams.mk 1 1 0 1 1 true 1 "euclidean" false).topk ∧
            ∀ v ∈ row, v.length = (Hparams.mk 1 1 0 1 1 true 1 "euclidean" false).embDim)) :=
  ⟨by decide, by decide,
    knnApprox_metric_support (Hparams.mk 1 1 0 1 1 true 1 "euclidean" false)
      [[0]] [[0]] (by decide) (by decide)⟩

/-! ## C1: the KNN-path negative logits (code bug)

The claim states the KNN-path negative logits are, per query row, the dot
products against the row's `topk` retrieved neighbours (`batch × topk`,
logits `batch × (1 + topk)`), matching the source's own comments
(`# negative logits: NxK`, `# logits: Nx(1+K)`) and the spec.  The code's
einsum output specification `'nc,njc->nc'` instead keeps the embedding
axis and sums over the neighbour axis, producing
`query[n][c] * Σ_j neg[n][j][c]` of shape `batch × emb_dim`. -/

/-- A concrete failing configuration: `topk = 1`, `emb_dim = 2`. -/
def hpKnnBug : Hparams := Hparams.mk 2 1 0 1 1 true 1 "euclidean" false

/-- Model state for the failing input: training queue holds the single
column `[1, 0]`. -/
def stKnnBug : ModelState := ModelState.mk [1] [1] [[1, 0]] 0 [[9, 9]] 0

/-- C1 fails on the code: at the failing input the einsum written in
`forward` yields the elementwise products `[[1*3, 2*4]] = [[3, 8]]` rather
than the neighbour dot products `[[11]]`, and a full KNN-path `forward`
call returns a logits row of width `1 + emb_dim = 3`, not
`1 + topk = 2`. -/
theorem knn_negative_logits_shape_bug :
    einsum_nc_njc_nc [[1, 2]] [[[3, 4]]] = [[3, 8]] ∧
    ([[3, 8]] : Mat) ≠ [[dotProduct [1, 2] [3, 4]]] ∧
    (forward hpKnnBug (fun _ v => v) id stKnnBug [[1, 2]] [[0, 1]]
        stKnnBug.queue).map (fun r => (r.1.getD 0 []).length) = some 3 ∧
    1 + hpKnnBug.topk = 2 := by
  refine ⟨by norm_num [einsum_nc_njc_nc, List.range_succ],
    by norm_num [dotProduct], ?_, by decide⟩
  norm_num [forward, negLogitsOf, knnApprox, metricDist, argKmin, hpKnnBug,
    stKnnBug, assembleLogits, einsum_nc_njc_nc, dotProduct, sqDist,
    List.range_succ, List.insertionSort, List.orderedInsert]


/-! ## C2: queue separation between training and validation

Mutation separation holds: a training step writes only `queue`/`queue_ptr`,
a validation step writes only `val_queue`/`val_queue_ptr`.  Read separation
holds on the standard path (each step's negatives come from the queue it
passes to `forward`), but **fails on the KNN path**: `knn_approx` always
mines from the training queue `self.queue`, also when `forward` is invoked
from `validation_step` with the validation queue. -/

/-- C2 (amended): per-step queue mutation is fully separate, and on the
standard path each step draws negatives from its own queue; on the KNN
path, however, both steps — including validation — mine their negatives
from the *training* queue `st.queue`. -/
theorem queue_separation (hp : Hparams) (enc : Vec → Vec → Vec)
    (normalizeRow : Vec → Vec) (ce : Mat → Vec → ℚ) (kml : Mat → Mat → ℚ)
    (st : ModelState) (img1 img2 : List Vec)
    (stT stV : ModelState) (logitsT logitsV : Mat) (labelsT labelsV : Vec)
    (qT qV kT kV : Mat) (lossT lossV : ℚ)
    (ht : trainingStep hp enc normalizeRow ce kml st img1 img2 =
      some (stT, logitsT, labelsT, qT, kT, lossT))
    (hv : validationStep hp enc normalizeRow ce kml st img1 img2 =
      some (stV, logitsV, labelsV, qV, kV, lossV)) :
    stT.valQueue = st.valQueue ∧ stT.valQueuePtr = st.valQueuePtr ∧
    stV.queue = st.queue ∧ stV.queuePtr = st.queuePtr ∧
    stV.encQ = st.encQ ∧ stV.encK = st.encK ∧
    (hp.useKnn = false →
      logitsT = assembleLogits (List.zipWith dotProduct qT kT)
        (einsum_nc_ck_nk qT st.queue) hp.softmaxTemperature ∧
      logitsV = assembleLogits (List.zipWith dotProduct qV kV)
        (einsum_nc_ck_nk qV st.valQueue) hp.softmaxTemperature) ∧
    (hp.useKnn = true →
      ∃ negT negV, knnApprox hp st.queue qT = some negT ∧
        knnApprox hp st.queue qV = some negV ∧
        logitsT = assembleLogits (List.zipWith dotProduct qT kT)
          (einsum_nc_njc_nc qT negT) hp.softmaxTemperature ∧
        logitsV = assembleLogits (List.zipWith dotProduct qV kV)
          (einsum_nc_njc_nc qV negV) hp.softmaxTemperature) := by
  unfold trainingStep at ht
  unfold validationStep at hv
  obtain ⟨⟨outT, tgtT, qT', kT'⟩, hfT, heT⟩ := Option.map_eq_some'.1 ht
  obtain ⟨⟨outV, tgtV, qV', kV'⟩, hfV, heV⟩ := Option.map_eq_some'.1 hv
  simp only [Prod.mk.injEq] at heT heV
  obtain ⟨hsT, hoT, htgT, hqT, hkT, hlT⟩ := heT
  obtain ⟨hsV, hoV, htgV, hqV, hkV, hlV⟩ := heV
  unfold forward at hfT hfV
  obtain ⟨lNegT, hnT, heqT⟩ := Option.map_eq_some'.1 hfT
  obtain ⟨lNegV, hnV, heqV⟩ := Option.map_eq_some'.1 hfV
  simp only [Prod.mk.injEq] at heqT heqV
  obtain ⟨hoT', htgT', hqT', hkT'⟩ := heqT
  obtain ⟨hoV', htgV', hqV', hkV'⟩ := heqV
  subst hsT hsV hoT hoV htgT htgV hqT hqV hkT hkV hlT hlV
  subst hoT' hoV' hqT' hqV' hkT' hkV'
  refine ⟨rfl, rfl, rfl, rfl, rfl, rfl, ?_, ?_⟩
  · intro hknn
    unfold negLogitsOf at hnT hnV
    rw [hknn] at hnT hnV
    simp only [Bool.false_eq_true, if_false, Option.some.injEq] at hnT hnV
    exact ⟨by rw [hnT], by rw [hnV]⟩
  · intro hknn
    unfold negLogitsOf at hnT hnV
    rw [hknn] at hnT hnV
    simp only [if_true] at hnT hnV
    obtain ⟨negT, hnegT, hmapT⟩ := Option.map_eq_some'.1 hnT
    obtain ⟨negV, hnegV, hmapV⟩ := Option.map_eq_some'.1 hnV
    exact ⟨negT, negV, hnegT, hnegV, by rw [hmapT], by rw [hmapV]⟩

/-- Witness for C2 (amended) on a concrete standard-path pair of steps. -/
theorem queue_separation_witness :
    trainingStep (Hparams.mk 1 1 0 1 1 false 0 "euclidean" false)
        (fun p _ => p) id (fun _ _ => 0) (fun _ _ => 0)
        (ModelState.mk [1] [1] [[2]] 0 [[3]] 0) [[0]] [[0]] =
      some (ModelState.mk [1] [1] [[1]] 0 [[3]] 0, [[1, 2]], [0], [[1]], [[1]], 0) ∧
    validationStep (Hparams.mk 1 1 0 1 1 false 0 "euclidean" false)
        (fun p _ => p) id (fun _ _ => 0) (fun _ _ => 0)
        (ModelState.mk [1] [1] [[2]] 0 [[3]] 0) [[0]] [[0]] =
      some (ModelState.mk [1] [1] [[2]] 0 [[1]] 0, [[1, 3]], [0], [[1]], [[1]], 0) ∧
    ((ModelState.mk [1] [1] [[1]] 0 [[3]] 0).valQueue =
        (ModelState.mk [1] [1] [[2]] 0 [[3]] 0).valQueue ∧
      (ModelState.mk [1] [1] [[1]] 0 [[3]] 0).valQueuePtr =
        (ModelState.mk [1] [1] [[2]] 0 [[3]] 0).valQueuePtr ∧
      (ModelState.mk [1] [1] [[2]] 0 [[1]] 0).queue =
        (ModelState.mk [1] [1] [[2]] 0 [[3]] 0).queue ∧
      (ModelState.mk [1] [1] [[2]] 0 [[1]] 0).queuePtr =
        (ModelState.mk [1] [1] [[2]] 0 [[3]] 0).queuePtr ∧
      (ModelState.mk [1] [1] [[2]] 0 [[1]] 0).encQ =
        (ModelState.mk [1] [1] [[2]] 0 [[3]] 0).encQ ∧
      (ModelState.mk [1] [1] [[2]] 0 [[1]] 0).encK =
        (ModelState.mk [1] [1] [[2]] 0 [[3]] 0).encK ∧
      ((Hparams.mk 1 1 0 1 1 false 0 "euclidean" false).useKnn = false →
        ([[1, 2]] : Mat) = assembleLogits (List.zipWith dotProduct [[1]] [[1]])
          (einsum_nc_ck_nk [[1]] (ModelState.mk [1] [1] [[2]] 0 [[3]] 0).queue)
          (Hparams.mk 1 1 0 1 1 false 0 "euclidean" false).softmaxTemperature ∧
        ([[1, 3]] : Mat) = assembleLogits (List.zipWith dotProduct [[1]] [[1]])
          (einsum_nc_ck_nk [[1]] (ModelState.mk [1] [1] [[2]] 0 [[3]] 0).valQueue)
          (Hparams.mk 1 1 0 1 1 false 0 "euclidean" false).softmaxTemperature) ∧
      ((Hparams.mk 1 1 0 1 1 false 0 "euclidean" false).useKnn = true →
        ∃ negT negV,
          knnApprox (Hparams.mk 1 1 0 1 1 false 0 "euclidean" false)
            (ModelState.mk [1] [1] [[2]] 0 [[3]] 0).queue [[1]] = some negT ∧
          knnApprox (Hparams.mk 1 1 0 1 1 false 0 "euclidean" false)
            (ModelState.mk [1] [1] [[2]] 0 [[3]] 0).queue [[1]] = some negV ∧
          ([[1, 2]] : Mat) = assembleLogits (List.zipWith dotProduct [[1]] [[1]])
            (einsum_nc_njc_nc [[1]] negT)
            (Hparams.mk 1 1 0 1 1 false 0 "euclidean" false).softmaxTemperature ∧
          ([[1, 3]] : Mat) = assembleLogits (List.zipWith dotProduct [[1]] [[1]])
            (einsum_nc_njc_nc [[1]] negV)
            (Hparams.mk 1 1 0 1 1 false 0 "euclidean" false).softmaxTemperature)) := by
  have hT : trainingStep (Hparams.mk 1 1 0 1 1 false 0 "euclidean" false)
      (fun p _ => p) id (fun _ _ => 0) (fun _ _ => 0)
      (ModelState.mk [1] [1] [[2]] 0 [[3]] 0) [[0]] [[0]] =
      some (ModelState.mk [1] [1] [[1]] 0 [[3]] 0, [[1, 2]], [0], [[1]], [[1]], 0) := by
    norm_num [trainingStep, forward, negLogitsOf, einsum_nc_ck_nk, assembleLogits,
      dotProduct, momentumUpdate, dequeueAndEnqueue, queueWrite]
  have hV : validationStep (Hparams.mk 1 1 0 1 1 false 0 "euclidean" false)
      (fun p _ => p) id (fun _ _ => 0) (fun _ _ => 0)
      (ModelState.mk [1] [1] [[2]] 0 [[3]] 0) [[0]] [[0]] =
      some (ModelState.mk [1] [1] [[2]] 0 [[1]] 0, [[1, 3]], [0], [[1]], [[1]], 0) := by
    norm_num [validationStep, forward, negLogitsOf, einsum_nc_ck_nk, assembleLogits,
      dotProduct, dequeueAndEnqueue, queueWrite]
  exact ⟨hT, hV,
    queue_separation (Hparams.mk 1 1 0 1 1 false 0 "euclidean" false)
      (fun p _ => p) id (fun _ _ => 0) (fun _ _ => 0)
      (ModelState.mk [1] [1] [[2]] 0 [[3]] 0) [[0]] [[0]]
      (ModelState.mk [1] [1] [[1]] 0 [[3]] 0) (ModelState.mk [1] [1] [[2]] 0 [[1]] 0)
      [[1, 2]] [[1, 3]] [0] [0] [[1]] [[1]] [[1]] [[1]] 0 0 hT hV⟩

/-- Concrete configuration for the C2 counterexample: KNN path enabled. -/
def hpC2 : Hparams := Hparams.mk 1 1 0 1 1 true 1 "euclidean" false

/-- C2 counterexample (refuting the claim as stated): two model states that
agree on the validation queue and differ only in the *training* queue give
different validation-step results — the validation step's negatives are
mined from the training queue on the KNN path, not from its own queue. -/
theorem validation_negatives_from_train_queue :
    (ModelState.mk [1] [1] [[5]] 0 [[9]] 0).valQueue =
      (ModelState.mk [1] [1] [[7]] 0 [[9]] 0).valQueue ∧
    validationStep hpC2 (fun _ v => v) id (fun _ _ => 0) (fun _ _ => 0)
        (ModelState.mk [1] [1] [[5]] 0 [[9]] 0) [[1]] [[1]] ≠
      validationStep hpC2 (fun _ v => v) id (fun _ _ => 0) (fun _ _ => 0)
        (ModelState.mk [1] [1] [[7]] 0 [[9]] 0) [[1]] [[1]] := by
  have hA : validationStep hpC2 (fun _ v => v) id (fun _ _ => 0) (fun _ _ => 0)
      (ModelState.mk [1] [1] [[5]] 0 [[9]] 0) [[1]] [[1]] =
      some (ModelState.mk [1] [1] [[5]] 0 [[1]] 0, [[1, 5]], [0], [[1]], [[1]], 0) := by
    norm_num [validationStep, forward, negLogitsOf, knnApprox, metricDist,
      argKmin, dequeueAndEnqueue, queueWrite, assembleLogits, einsum_nc_njc_nc,
      dotProduct, sqDist, hpC2, List.range_succ, List.insertionSort,
      List.orderedInsert]
  have hB : validationStep hpC2 (fun _ v => v) id (fun _ _ => 0) (fun _ _ => 0)
      (ModelState.mk [1] [1] [[7]] 0 [[9]] 0) [[1]] [[1]] =
      some (ModelState.mk [1] [1] [[7]] 0 [[1]] 0, [[1, 7]], [0], [[1]], [[1]], 0) := by
    norm_num [validationStep, forward, negLogitsOf, knnApprox, metricDist,
      argKmin, dequeueAndEnqueue, queueWrite, assembleLogits, einsum_nc_njc_nc,
      dotProduct, sqDist, hpC2, List.range_succ, List.insertionSort,
      List.orderedInsert]
  refine ⟨rfl, ?_⟩
  rw [hA, hB]
  intro hcontra
  simp only [Option.some.injEq, Prod.mk.injEq] at hcontra
  have h57 : ([[ (1:ℚ), 5 ]] : Mat) = [[1, 7]] := hcontra.2.1
  simp only [List.cons.injEq] at h57
  norm_num at h57

/-! ## C8: order of operations in a training step -/

/-- C8: in every successful training step, the key encoder the step uses
is already the momentum-updated one, the query encoder is used as-is, the
enqueued keys are exactly this step's key embeddings written into the
*pre-step* training queue (so keys are enqueued only after being produced
and used), the negatives (standard path) come from the pre-enqueue queue,
and the loss is computed from this step's logits and targets. -/
theorem trainingStep_order (hp : Hparams) (enc : Vec → Vec → Vec)
    (normalizeRow : Vec → Vec) (ce : Mat → Vec → ℚ) (kml : Mat → Mat → ℚ)
    (st : ModelState) (img1 img2 : List Vec) (st' : ModelState) (logits : Mat)
    (labels : Vec) (query key : Mat) (loss : ℚ)
    (h : trainingStep hp enc normalizeRow ce kml st img1 img2 =
      some (st', logits, labels, query, key, loss)) :
    st'.encK = momentumUpdate hp.encoderMomentum st.encQ st.encK ∧
    query = (img1.map (enc st.encQ)).map normalizeRow ∧
    key = (img2.map (enc (momentumUpdate hp.encoderMomentum st.encQ st.encK))).map
      normalizeRow ∧
    (st'.queuePtr, st'.queue) = dequeueAndEnqueue hp key st.queuePtr st.queue ∧
    (hp.useKnn = false →
      logits = assembleLogits (List.zipWith dotProduct query key)
        (einsum_nc_ck_nk query st.queue) hp.softmaxTemperature) ∧
    loss = (if hp.useKmeans = true then ce logits labels + kml query key
      else ce logits labels) := by
  unfold trainingStep at h
  obtain ⟨⟨out, tgt, q', k'⟩, hf, he⟩ := Option.map_eq_some'.1 h
  simp only [Prod.mk.injEq] at he
  obtain ⟨hs, ho, htg, hq, hk, hl⟩ := he
  unfold forward at hf
  obtain ⟨lNeg, hn, heq⟩ := Option.map_eq_some'.1 hf
  simp only [Prod.mk.injEq] at heq
  obtain ⟨ho', htg', hq', hk'⟩ := heq
  subst hs ho htg hq hk hl
  subst ho' hq' hk'
  refine ⟨rfl, rfl, rfl, rfl, ?_, rfl⟩
  intro hknn
  unfold negLogitsOf at hn
  rw [hknn] at hn
  simp only [Bool.false_eq_true, if_false, Option.some.injEq] at hn
  rw [hn]

/-- Witness for C8 on a concrete training step (standard path,
momentum 1/2: the key parameter blends `0` toward `1`, the blended key
encoder produces the step's keys, which are then enqueued). -/
theorem trainingStep_order_witness :
    trainingStep (Hparams.mk 1 1 (1/2) 1 1 false 0 "euclidean" false)
        (fun p _ => p) id (fun _ _ => 0) (fun _ _ => 0)
        (ModelState.mk [1] [0] [[2]] 0 [[3]] 0) [[0]] [[0]] =
      some (ModelState.mk [1] [1/2] [[1/2]] 0 [[3]] 0,
        [[1/2, 2]], [0], [[1]], [[1/2]], 0) ∧
    ((ModelState.mk [1] [1/2] [[1/2]] 0 [[3]] 0).encK =
        momentumUpdate (Hparams.mk 1 1 (1/2) 1 1 false 0 "euclidean" false).encoderMomentum
          (ModelState.mk [1] [0] [[2]] 0 [[3]] 0).encQ
          (ModelState.mk [1] [0] [[2]] 0 [[3]] 0).encK ∧
      ([[1]] : Mat) = (([[(0:ℚ)]].map ((fun (p : Vec) (_ : Vec) => p)
          (ModelState.mk [1] [0] [[2]] 0 [[3]] 0).encQ)).map id) ∧
      ([[1/2]] : Mat) = (([[(0:ℚ)]].map ((fun (p : Vec) (_ : Vec) => p)
          (momentumUpdate
            (Hparams.mk 1 1 (1/2) 1 1 false 0 "euclidean" false).encoderMomentum
            (ModelState.mk [1] [0] [[2]] 0 [[3]] 0).encQ
            (ModelState.mk [1] [0] [[2]] 0 [[3]] 0).encK))).map id) ∧
      ((ModelState.mk [1] [1/2] [[1/2]] 0 [[3]] 0).queuePtr,
        (ModelState.mk [1] [1/2] [[1/2]] 0 [[3]] 0).queue) =
        dequeueAndEnqueue (Hparams.mk 1 1 (1/2) 1 1 false 0 "euclidean" false)
          [[1/2]] (ModelState.mk [1] [0] [[2]] 0 [[3]] 0).queuePtr
          (ModelState.mk [1] [0] [[2]] 0 [[3]] 0).queue ∧
      ((Hparams.mk 1 1 (1/2) 1 1 false 0 "euclidean" false).useKnn = false →
        ([[1/2, 2]] : Mat) = assembleLogits
          (List.zipWith dotProduct [[1]] [[1/2]])
          (einsum_nc_ck_nk [[1]] (ModelState.mk [1] [0] [[2]] 0 [[3]] 0).queue)
          (Hparams.mk 1 1 (1/2) 1 1 false 0 "euclidean" false).softmaxTemperature) ∧
      (0 : ℚ) = (if (Hparams.mk 1 1 (1/2) 1 1 false 0 "euclidean" false).useKmeans = true
        then (fun (_ : Mat) (_ : Vec) => (0:ℚ)) [[1/2, 2]] [0] +
          (fun (_ : Mat) (_ : Mat) => (0:ℚ)) [[1]] [[1/2]]
        else (fun (_ : Mat) (_ : Vec) => (0:ℚ)) [[1/2, 2]] [0])) := by
  have hstep : trainingStep (Hparams.mk 1 1 (1/2) 1 1 false 0 "euclidean" false)
      (fun p _ => p) id (fun _ _ => 0) (fun _ _ => 0)
      (ModelState.mk [1] [0] [[2]] 0 [[3]] 0) [[0]] [[0]] =
      some (ModelState.mk [1] [1/2] [[1/2]] 0 [[3]] 0,
        [[1/2, 2]], [0], [[1]], [[1/2]], 0) := by
    norm_num [trainingStep, forward, negLogitsOf, einsum_nc_ck_nk,
      assembleLogits, dotProduct, momentumUpdate, dequeueAndEnqueue, queueWrite]
  exact ⟨hstep,
    trainingStep_order (Hparams.mk 1 1 (1/2) 1 1 false 0 "euclidean" false)
      (fun p _ => p) id (fun _ _ => 0) (fun _ _ => 0)
      (ModelState.mk [1] [0] [[2]] 0 [[3]] 0) [[0]] [[0]]
      (ModelState.mk [1] [1/2] [[1/2]] 0 [[3]] 0)
      [[1/2, 2]] [0] [[1]] [[1/2]] 0 hstep⟩


/-! ## C10: contiguous slice write and the divisibility safety condition -/

/-- The pointer values reachable by repeated full-batch enqueues from `0`
are exactly `k * bs % N`; they all leave room for a full contiguous batch
write (`ptr + bs ≤ N`) precisely when the capacity is a multiple of the
batch size (the commented-out
`assert self.hparams.num_negatives % batch_size == 0`). -/
theorem reachable_ptr_bound_iff (N bs : Nat) (hN : 0 < N) (hbs : 0 < bs) :
    (∀ k : Nat, k * bs % N + bs ≤ N) ↔ N % bs = 0 := by
  constructor
  · intro h
    by_contra hne
    have hbsN : bs ≤ N := by simpa using h 0
    have hdpos : 0 < Nat.gcd bs N := Nat.gcd_pos_of_pos_left N hbs
    have hdbs : Nat.gcd bs N ∣ bs := Nat.gcd_dvd_left bs N
    have hdN : Nat.gcd bs N ∣ N := Nat.gcd_dvd_right bs N
    have hdlt : Nat.gcd bs N < bs := by
      rcases lt_or_eq_of_le (Nat.le_of_dvd hbs hdbs) with h' | h'
      · exact h'
      · exact absurd (Nat.dvd_iff_mod_eq_zero.mp (h' ▸ hdN)) hne
    have hdleN : Nat.gcd bs N ≤ N := Nat.le_of_dvd hN hdN
    obtain ⟨k, hk⟩ : ∃ k : Nat, k * bs % N = N - Nat.gcd bs N := by
      have hbez : (Nat.gcd bs N : ℤ) = bs * Nat.gcdA bs N + N * Nat.gcdB bs N :=
        Nat.gcd_eq_gcd_ab bs N
      have hNz : (N : ℤ) ≠ 0 := by exact_mod_cast hN.ne'
      refine ⟨((-(Nat.gcdA bs N)) % (N : ℤ)).toNat, ?_⟩
      have h0 : (0 : ℤ) ≤ (-(Nat.gcdA bs N)) % (N : ℤ) := Int.emod_nonneg _ hNz
      have hcast : ((((-(Nat.gcdA bs N)) % (N : ℤ)).toNat * bs % N : ℕ) : ℤ) =
          ((N : ℤ) - Nat.gcd bs N) := by
        push_cast
        rw [Int.toNat_of_nonneg h0]
        rw [Int.mul_emod, Int.emod_emod_of_dvd _ (dvd_refl (N : ℤ)), ← Int.mul_emod]
        have harith : (-(Nat.gcdA bs N)) * bs =
            -(Nat.gcd bs N : ℤ) + (N : ℤ) * Nat.gcdB bs N := by
          rw [hbez]; ring
        rw [harith, Int.add_mul_emod_self_left]
        have hmod : (-(Nat.gcd bs N : ℤ)) % N = ((N : ℤ) - Nat.gcd bs N) % N := by
          conv_lhs => rw [show (-(Nat.gcd bs N : ℤ)) =
            ((N : ℤ) - Nat.gcd bs N) + N * (-1) by ring]
          rw [Int.add_mul_emod_self_left]
        rw [hmod]
        refine Int.emod_eq_of_lt ?_ ?_
        · have : (Nat.gcd bs N : ℤ) ≤ N := by exact_mod_cast hdleN
          omega
        · have : (0 : ℤ) < Nat.gcd bs N := by exact_mod_cast hdpos
          omega
      omega
    have := h k
    omega
  · intro hmod k
    obtain ⟨m, hm⟩ := Nat.dvd_of_mod_eq_zero hmod
    subst hm
    have hmpos : 0 < m := Nat.pos_of_ne_zero (by rintro rfl; simp at hN)
    have hx : k * bs % (bs * m) = bs * (k % m) := by
      rw [Nat.mul_comm k bs, Nat.mul_mod_mul_left]
    rw [hx]
    have h1 : k % m + 1 ≤ m := Nat.mod_lt k hmpos
    calc bs * (k % m) + bs = bs * (k % m + 1) := by ring
    _ ≤ bs * m := Nat.mul_le_mul_left bs h1

/-- C10: the enqueue writes one contiguous window `[ptr, ptr + batch)` —
columns below `ptr` and from `ptr + batch` on are untouched, the window is
filled linearly from the keys with no wrap-around — the write preserves
the queue's column count exactly when `ptr + batch ≤ capacity`, and every
reachable pointer satisfies that bound precisely when the capacity is a
multiple of the configured batch size. -/
theorem enqueue_contiguous_write (hp : Hparams) (q : Mat) (ptr : Nat) (keys : Mat)
    (hptr : ptr ≤ q.length) (hN : 0 < hp.numNegatives) (hbs : 0 < hp.batchSize) :
    (∀ (j : Nat) (d : Vec), j < ptr →
      (queueWrite q ptr keys).getD j d = q.getD j d) ∧
    (∀ (j : Nat) (d : Vec), ptr ≤ j → j < ptr + keys.length →
      (queueWrite q ptr keys).getD j d = keys.getD (j - ptr) d) ∧
    (∀ (j : Nat) (d : Vec), ptr + keys.length ≤ j →
      (queueWrite q ptr keys).getD j d = q.getD j d) ∧
    ((queueWrite q ptr keys).length = q.length ↔ ptr + keys.length ≤ q.length) ∧
    ((∀ k : Nat, k * hp.batchSize % hp.numNegatives + hp.batchSize ≤ hp.numNegatives)
      ↔ hp.numNegatives % hp.batchSize = 0) := by
  have htake : (q.take ptr).length = ptr := by
    simp [List.length_take, Nat.min_eq_left hptr]
  have hlen2 : (q.take ptr ++ keys).length = ptr + keys.length := by
    simp [htake]
  refine ⟨?_, ?_, ?_, ?_, reachable_ptr_bound_iff hp.numNegatives hp.batchSize hN hbs⟩
  · intro j d hj
    unfold queueWrite
    rw [List.getD_eq_getElem?_getD, List.getD_eq_getElem?_getD,
      List.getElem?_append_left (by rw [hlen2]; omega),
      List.getElem?_append_left (by rw [htake]; exact hj),
      List.getElem?_take_of_lt hj]
  · intro j d h1 h2
    unfold queueWrite
    rw [List.getD_eq_getElem?_getD, List.getD_eq_getElem?_getD,
      List.getElem?_append_left (by rw [hlen2]; omega),
      List.getElem?_append_right (by rw [htake]; exact h1), htake]
  · intro j d hj
    unfold queueWrite
    rw [List.getD_eq_getElem?_getD, List.getD_eq_getElem?_getD,
      List.getElem?_append_right (by rw [hlen2]; omega), hlen2,
      List.getElem?_drop]
    have harith : ptr + keys.length + (j - (ptr + keys.length)) = j := by omega
    rw [harith]
  · unfold queueWrite
    simp only [List.length_append, htake, List.length_drop]
    omega

/-- Witness for C10 on a concrete queue (capacity 4, batch 2, pointer 2). -/
theorem enqueue_contiguous_write_witness :
    (2 : Nat) ≤ ([[0],[1],[2],[3]] : Mat).length ∧
    0 < (Hparams.mk 1 4 0 1 2 false 0 "euclidean" false).numNegatives ∧
    0 < (Hparams.mk 1 4 0 1 2 false 0 "euclidean" false).batchSize ∧
    ((∀ (j : Nat) (d : Vec), j < 2 →
        (queueWrite [[0],[1],[2],[3]] 2 [[8],[9]]).getD j d =
          ([[0],[1],[2],[3]] : Mat).getD j d) ∧
      (∀ (j : Nat) (d : Vec), 2 ≤ j → j < 2 + ([[8],[9]] : Mat).length →
        (queueWrite [[0],[1],[2],[3]] 2 [[8],[9]]).getD j d =
          ([[8],[9]] : Mat).getD (j - 2) d) ∧
      (∀ (j : Nat) (d : Vec), 2 + ([[8],[9]] : Mat).length ≤ j →
        (queueWrite [[0],[1],[2],[3]] 2 [[8],[9]]).getD j d =
          ([[0],[1],[2],[3]] : Mat).getD j d) ∧
      ((queueWrite [[0],[1],[2],[3]] 2 [[8],[9]]).length =
          ([[0],[1],[2],[3]] : Mat).length ↔
        2 + ([[8],[9]] : Mat).length ≤ ([[0],[1],[2],[3]] : Mat).length) ∧
      ((∀ k : Nat,
          k * (Hparams.mk 1 4 0 1 2 false 0 "euclidean" false).batchSize %
              (Hparams.mk 1 4 0 1 2 false 0 "euclidean" false).numNegatives +
            (Hparams.mk 1 4 0 1 2 false 0 "euclidean" false).batchSize ≤
          (Hparams.mk 1 4 0 1 2 false 0 "euclidean" false).numNegatives) ↔
        (Hparams.mk 1 4 0 1 2 false 0 "euclidean" false).numNegatives %
          (Hparams.mk 1 4 0 1 2 false 0 "euclidean" false).batchSize = 0)) :=
  ⟨by decide, by decide, by decide,
    enqueue_contiguous_write (Hparams.mk 1 4 0 1 2 false 0 "euclidean" false)
      [[0],[1],[2],[3]] 2 [[8],[9]] (by decide) (by decide) (by decide)⟩


/-! ## C7: the distributed batch shuffle and its inverse -/

/-- `torch.argsort(idx_shuffle)`: the index list sorted by ascending entry
value (stable).  For a permutation of `range n` this yields the inverse
permutation used by `_batch_unshuffle_ddp` to restore original order. -/
def argsort (v : List Nat) : List Nat :=
  List.insertionSort (fun i j => v.getD i 0 ≤ v.getD j 0) (List.range v.length)

/-- `t.view(num_gpus, -1)[g]`: worker `g`'s length-`L` slice of a
length-`num_gpus * L` tensor (also worker `g`'s shard of a gathered
batch). -/
def localSlice {α : Type} (l : List α) (g L : Nat) : List α :=
  (l.drop (g * L)).take L

/-- `MDEE._batch_shuffle_ddp` on worker `g`: gather the key batch across
all workers (rank-ascending), take worker `g`'s slice
`idx_shuffle.view(num_gpus, -1)[g]` of the broadcast permutation, and
index the gathered batch with it. -/
def batchShuffleDDP {α : Type} (xGather : List α) (idxShuffle : List Nat)
    (g L : Nat) (d : α) : List α :=
  (localSlice idxShuffle g L).map fun i => xGather.getD i d

/-- `MDEE._batch_unshuffle_ddp` on worker `g`: re-gather the per-worker
encoder outputs, take worker `g`'s slice of `idx_unshuffle`, and index the
gathered outputs with it. -/
def batchUnshuffleDDP {α : Type} (xGather : List α) (idxUnshuffle : List Nat)
    (g L : Nat) (d : α) : List α :=
  (localSlice idxUnshuffle g L).map fun i => xGather.getD i d

/-- `concat_all_gather` of the per-worker shuffled batches after an
identity key encoder: the rank-ascending concatenation of every worker's
`_batch_shuffle_ddp` output — the tensor `_batch_unshuffle_ddp` gathers. -/
def shuffledGather {α : Type} (x : List α) (idxShuffle : List Nat)
    (W L : Nat) (d : α) : List α :=
  ((List.range W).map fun g => batchShuffleDDP x idxShuffle g L d).flatten

theorem map_getD_range {α : Type} (v : List α) (d : α) :
    (List.range v.length).map (fun i => v.getD i d) = v := by
  induction v with
  | nil => simp
  | cons a t ih =>
      rw [List.length_cons, List.range_succ_eq_map, List.map_cons, List.map_map]
      have htail : (List.range t.length).map ((fun i => (a :: t).getD i d) ∘ Nat.succ)
          = (List.range t.length).map (fun i => t.getD i d) := by
        apply List.map_congr_left
        intro i _
        simp [List.getD_cons_succ]
      rw [htail, ih]
      simp

theorem localSlice_flatten {α : Type} (W L : Nat) :
    ∀ l : List α, l.length = W * L →
      ((List.range W).map fun g => localSlice l g L).flatten = l := by
  induction W with
  | zero =>
      intro l hl
      simp at hl
      simp [hl]
  | succ W ih =>
      intro l hl
      rw [List.range_succ_eq_map, List.map_cons, List.flatten_cons, List.map_map]
      have hslice : ∀ g : Nat, localSlice l (g + 1) L = localSlice (l.drop L) g L := by
        intro g
        unfold localSlice
        rw [List.drop_drop, show L + g * L = (g + 1) * L by ring]
      have hmap : (List.range W).map ((fun g => localSlice l g L) ∘ Nat.succ) =
          (List.range W).map fun g => localSlice (l.drop L) g L := by
        apply List.map_congr_left
        intro g _
        exact hslice g
      rw [hmap, ih (l.drop L) (by rw [List.length_drop, hl, Nat.succ_mul]; omega)]
      simp only [localSlice, Nat.zero_mul, List.drop_zero]
      exact List.take_append_drop L l

theorem shuffledGather_eq_map {α : Type} (x : List α) (σ : List Nat)
    (W L : Nat) (d : α) (hσ : σ.length = W * L) :
    shuffledGather x σ W L d = σ.map fun i => x.getD i d := by
  calc shuffledGather x σ W L d
      = (((List.range W).map fun g => localSlice σ g L).map
          (List.map fun i => x.getD i d)).flatten := by
        unfold shuffledGather batchShuffleDDP
        rw [List.map_map]
        rfl
    _ = (((List.range W).map fun g => localSlice σ g L).flatten).map
          (fun i => x.getD i d) := (List.map_flatten _ _).symm
    _ = σ.map fun i => x.getD i d := by rw [localSlice_flatten W L σ hσ]


theorem argsort_perm (v : List Nat) : (argsort v).Perm (List.range v.length) :=
  List.perm_insertionSort _ _

theorem argsort_length (v : List Nat) : (argsort v).length = v.length := by
  simpa using (argsort_perm v).length_eq

/-- Sorting the index range of a permutation `v` of `range n` by value and
reading the values back yields `0, 1, …, n-1` in order. -/
theorem argsort_map_getD (v : List Nat) (hperm : v.Perm (List.range v.length)) :
    (argsort v).map (fun i => v.getD i 0) = List.range v.length := by
  haveI htot : IsTotal ℕ (fun i j => v.getD i 0 ≤ v.getD j 0) :=
    ⟨fun a b => le_total _ _⟩
  haveI htrans : IsTrans ℕ (fun i j => v.getD i 0 ≤ v.getD j 0) :=
    ⟨fun a b c hab hbc => le_trans hab hbc⟩
  have hp : ((argsort v).map (fun i => v.getD i 0)).Perm (List.range v.length) := by
    have h1 := (argsort_perm v).map (fun i => v.getD i 0)
    rw [map_getD_range v 0] at h1
    exact h1.trans hperm
  have hs : ((argsort v).map (fun i => v.getD i 0)).Sorted (· ≤ ·) := by
    have hsorted := List.sorted_insertionSort
      (r := fun i j => v.getD i 0 ≤ v.getD j 0) (List.range v.length)
    exact List.Pairwise.map _ (fun a b h => h) hsorted
  exact List.eq_of_perm_of_sorted hp hs (List.sorted_le_range _)

/-- `v[argsort v [i]] = i`: argsort of a permutation is its inverse. -/
theorem argsort_getD_inverse (v : List Nat) (hperm : v.Perm (List.range v.length))
    (i : Nat) (hi : i < v.length) :
    v.getD ((argsort v).getD i 0) 0 = i := by
  have h := argsort_map_getD v hperm
  have h2 : (List.range v.length).getD i 0 = i := by
    rw [List.getD_eq_getElem _ _ (by simpa using hi), List.getElem_range]
  calc v.getD ((argsort v).getD i 0) 0
      = ((argsort v).map (fun j => v.getD j 0)).getD i 0 :=
        (getD_map_of_lt (fun j => v.getD j 0) (argsort v) i 0 0
          (by rw [argsort_length]; exact hi)).symm
    _ = (List.range v.length).getD i 0 := by rw [h]
    _ = i := h2

theorem localSlice_length {α : Type} (l : List α) (g L : Nat)
    (h : (g + 1) * L ≤ l.length) : (localSlice l g L).length = L := by
  unfold localSlice
  rw [List.length_take, List.length_drop]
  rw [Nat.succ_mul] at h
  omega

theorem localSlice_getElem {α : Type} (l : List α) (g L t : Nat)
    (_ht : t < L) (hlen : g * L + t < l.length)
    (h2 : t < (localSlice l g L).length) :
    (localSlice l g L)[t] = l[g * L + t] := by
  unfold localSlice at h2 ⊢
  rw [List.getElem_take, List.getElem_drop]

/-- C7: for every world size `W`, local batch size `L`, global batch `x`
of length `W * L`, and broadcast permutation `σ` of `range (W * L)`,
unshuffling the re-gathered identity-encoded shuffled per-worker batches
with `argsort σ` restores exactly worker `g`'s original shard: the argsort
of the broadcast permutation is its exact inverse, and the per-worker
slice selections of shuffle and unshuffle cancel. -/
theorem shuffle_unshuffle_roundtrip {α : Type} (W L : Nat) (x : List α)
    (σ : List Nat) (d : α) (hx : x.length = W * L)
    (hσ : σ.Perm (List.range (W * L))) (g : Nat) (hg : g < W) :
    batchUnshuffleDDP (shuffledGather x σ W L d) (argsort σ) g L d =
      localSlice x g L := by
  have hσlen : σ.length = W * L := by simpa using hσ.length_eq
  have hperm : σ.Perm (List.range σ.length) := by rw [hσlen]; exact hσ
  have hτlen : (argsort σ).length = W * L := by rw [argsort_length, hσlen]
  have hgL : (g + 1) * L ≤ W * L := Nat.mul_le_mul_right L hg
  have hlen1 : (localSlice (argsort σ) g L).length = L :=
    localSlice_length _ g L (by rw [hτlen]; exact hgL)
  have hlenx : (localSlice x g L).length = L :=
    localSlice_length _ g L (by rw [hx]; exact hgL)
  rw [shuffledGather_eq_map x σ W L d hσlen]
  unfold batchUnshuffleDDP
  apply List.ext_getElem
  · rw [List.length_map, hlen1, hlenx]
  intro t h1 h2
  have ht : t < L := by rwa [List.length_map, hlen1] at h1
  have hglt : g * L + t < W * L := by
    have h' : g * L + L = (g + 1) * L := (Nat.succ_mul g L).symm
    omega
  have hτb : g * L + t < (argsort σ).length := by rw [hτlen]; exact hglt
  have hxb : g * L + t < x.length := by rw [hx]; exact hglt
  rw [List.getElem_map,
    localSlice_getElem (argsort σ) g L t ht hτb (by rw [hlen1]; exact ht)]
  have hjσ : (argsort σ)[g * L + t] < σ.length := by
    have hmem : (argsort σ)[g * L + t] ∈ argsort σ := List.getElem_mem hτb
    exact List.mem_range.1 ((argsort_perm σ).mem_iff.1 hmem)
  rw [getD_map_of_lt (fun i => x.getD i d) σ _ d 0 hjσ]
  have hinv : σ.getD ((argsort σ).getD (g * L + t) 0) 0 = g * L + t :=
    argsort_getD_inverse σ hperm (g * L + t) (by rw [hσlen]; exact hglt)
  rw [List.getD_eq_getElem _ _ hτb] at hinv
  rw [hinv, localSlice_getElem x g L t ht hxb (by rw [hlenx]; exact ht)]
  exact List.getD_eq_getElem _ _ hxb

/-- Witness for C7: world size 2, local batch 2, permutation `[2,0,3,1]`,
worker 1's shard `[30, 40]` is restored exactly. -/
theorem shuffle_unshuffle_roundtrip_witness :
    ([10, 20, 30, 40] : List Nat).length = 2 * 2 ∧
    ([2, 0, 3, 1] : List Nat).Perm (List.range (2 * 2)) ∧ 1 < 2 ∧
    batchUnshuffleDDP (shuffledGather [10, 20, 30, 40] [2, 0, 3, 1] 2 2 0)
        (argsort [2, 0, 3, 1]) 1 2 0 = localSlice [10, 20, 30, 40] 1 2 :=
  ⟨by decide, by decide, by decide,
    shuffle_unshuffle_roundtrip 2 2 [10, 20, 30, 40] [2, 0, 3, 1] 0 (by decide)
      (by decide) 1 (by decide)⟩

end Moco
